import Mathlib

/-!
Verification of the pr-splitter VS Code extension core.

Shallow embedding of the split-session state model (`splitModel.ts`), the
directory-tree builder and node projector (`treeHelpers.ts`), and the drag
hand-off buffer (`dragState.ts`).  TypeScript in-place mutation of the
`SplitModel` object is embedded as explicit state passing: each method
becomes a pure function taking the model and returning the (possibly
unchanged) model together with its return value.  `localeCompare` is
modelled as the lexicographic order on strings, the collation the spec
ascribes to it.  The `setTimeout`-based auto-clear of the drag buffer is
modelled by an explicit clock: `advance` moves time forward and fires the
pending timeout when its deadline is crossed.
-/

/-- Change kind of a file, the four git status letters kept by the extension. -/
inductive FileStatus where
  | A
  | M
  | D
  | R
deriving DecidableEq

/-- Embedding of the `SplitFile` interface: a path plus its change kind. -/
structure SplitFile where
  path : String
  status : FileStatus
deriving DecidableEq

/-- Embedding of the `SplitGroup` interface. -/
structure SplitGroup where
  id : Nat
  label : String
  files : List SplitFile
deriving DecidableEq

/-- Embedding of the mutable fields of the `SplitModel` class, with the
field initializers of the class as default values. -/
structure SplitModel where
  groups : List SplitGroup := []
  unassigned : List SplitFile := []
  baseBranch : String := "main"
  sourceBranch : String := ""
  active : Bool := false
deriving DecidableEq

/-- The freshly constructed `SplitModel` (all fields at their initializers). -/
def SplitModel.init : SplitModel := {}

/-- Embedding of the `number | "unassigned"` target parameter of `moveFiles`. -/
inductive MoveTarget where
  | unassigned
  | group (id : Nat)
deriving DecidableEq

/-- Embedding of `filter((f) => !filePaths.has(f.path))` applied to a file list. -/
def removePaths (paths : List String) (fs : List SplitFile) : List SplitFile :=
  fs.filter (fun f => decide (f.path ∉ paths))

/-- Embedding of `groups.find((g) => g.id === targetGroupId)` followed by an
in-place `target.files.push(...files)`: the first group with the given id
gets the files appended; if no group matches, the list is unchanged. -/
def appendToFirst (gs : List SplitGroup) (gid : Nat) (files : List SplitFile) :
    List SplitGroup :=
  match gs with
  | [] => []
  | g :: tl =>
      if g.id = gid then { g with files := g.files ++ files } :: tl
      else g :: appendToFirst tl gid files

/-- Embedding of `groups.find((g) => g.id === groupId)` followed by an
in-place `group.label = label`. -/
def setLabelFirst (gs : List SplitGroup) (gid : Nat) (label : String) :
    List SplitGroup :=
  match gs with
  | [] => []
  | g :: tl =>
      if g.id = gid then { g with label := label } :: tl
      else g :: setLabelFirst tl gid label

namespace SplitModel

/-- Embedding of `SplitModel.startSplit`.  The TypeScript method throws on a
failed precondition check before any field is assigned; a thrown error is
embedded as `(some message, s)` with the model unchanged, success as
`(none, s')` with the updated model. -/
def startSplit (numPrs : Nat) (files : List SplitFile)
    (baseBranch sourceBranch : String) (s : SplitModel) :
    Option String × SplitModel :=
  if numPrs < 1 then (some "numPrs must be at least 1", s)
  else if baseBranch = "" then (some "baseBranch is required", s)
  else if sourceBranch = "" then (some "sourceBranch is required", s)
  else if files.length = 0 then (some "files must not be empty", s)
  else
    (none,
      { groups :=
          (List.range numPrs).map (fun i =>
            { id := i + 1, label := "PR " ++ toString (i + 1), files := [] }),
        unassigned := files,
        baseBranch := baseBranch,
        sourceBranch := sourceBranch,
        active := true })

/-- Embedding of `SplitModel.moveFiles`: reject an unknown numeric target,
otherwise remove the batch's paths from `unassigned` and from every group,
then append the batch to the target container. -/
def moveFiles (files : List SplitFile) (target : MoveTarget) (s : SplitModel) :
    Bool × SplitModel :=
  match target with
  | MoveTarget.group gid =>
      if s.groups.any (fun g => g.id == gid) then
        (true,
          { s with
            unassigned := removePaths (files.map SplitFile.path) s.unassigned,
            groups :=
              appendToFirst
                (s.groups.map (fun g =>
                  { g with files := removePaths (files.map SplitFile.path) g.files }))
                gid files })
      else (false, s)
  | MoveTarget.unassigned =>
      (true,
        { s with
          unassigned :=
            removePaths (files.map SplitFile.path) s.unassigned ++ files,
          groups :=
            s.groups.map (fun g =>
              { g with files := removePaths (files.map SplitFile.path) g.files }) })

/-- Embedding of `SplitModel.renameGroup`. -/
def renameGroup (gid : Nat) (label : String) (s : SplitModel) :
    Bool × SplitModel :=
  if s.groups.any (fun g => g.id == gid) then
    (true, { s with groups := setLabelFirst s.groups gid label })
  else (false, s)

/-- Embedding of `SplitModel.deleteGroup`: push the first matching group's
files onto `unassigned`, then drop every group with that id. -/
def deleteGroup (gid : Nat) (s : SplitModel) : Bool × SplitModel :=
  match s.groups.find? (fun g => g.id == gid) with
  | none => (false, s)
  | some g =>
      (true,
        { s with
          unassigned := s.unassigned ++ g.files,
          groups := s.groups.filter (fun h => decide (h.id ≠ gid)) })

/-- Embedding of `SplitModel.reset`. -/
def reset (_s : SplitModel) : SplitModel :=
  { groups := [], unassigned := [], active := false,
    baseBranch := "main", sourceBranch := "" }

end SplitModel

/-- Every file path currently stored in the session, across `unassigned` and
all groups, as one list (its multiset is the quantity the partition law is
about; duplicates anywhere show up as duplicates here). -/
def sessionPaths (s : SplitModel) : List String :=
  s.unassigned.map SplitFile.path ++
    (s.groups.map (fun g => g.files.map SplitFile.path)).flatten

/-- One mutation of the session after `startSplit`, as quantified over by the
partition law. -/
inductive SessionOp where
  | move (files : List SplitFile) (target : MoveTarget)
  | rename (gid : Nat) (label : String)
  | delete (gid : Nat)
deriving DecidableEq

/-- Apply one mutation, discarding the boolean result. -/
def applyOp (s : SplitModel) : SessionOp → SplitModel
  | SessionOp.move files target => (SplitModel.moveFiles files target s).2
  | SessionOp.rename gid label => (SplitModel.renameGroup gid label s).2
  | SessionOp.delete gid => (SplitModel.deleteGroup gid s).2

/-- Apply a sequence of mutations left to right. -/
def applyOps (s : SplitModel) : List SessionOp → SplitModel
  | [] => s
  | op :: ops => applyOps (applyOp s op) ops

/-- A mutation is valid when any `moveFiles` batch has pairwise-distinct
paths all of which are already present in the session; `renameGroup` and
`deleteGroup` are always valid. -/
def ValidOp (s : SplitModel) : SessionOp → Prop
  | SessionOp.move files _ =>
      (files.map SplitFile.path).Nodup ∧
        ∀ p ∈ files.map SplitFile.path, p ∈ sessionPaths s
  | SessionOp.rename _ _ => True
  | SessionOp.delete _ => True

/-- Validity of a whole sequence of mutations, each judged in the state the
previous ones produced. -/
inductive ValidOps : SplitModel → List SessionOp → Prop
  | nil (s : SplitModel) : ValidOps s []
  | cons (s : SplitModel) (op : SessionOp) (ops : List SessionOp) :
      ValidOp s op → ValidOps (applyOp s op) ops → ValidOps s (op :: ops)

/-! Drag hand-off buffer (`dragState.ts`).  The module-level variables
`pending` and `timer` together with the wall clock form the state; `timer`
holds the absolute time at which the scheduled auto-clear callback fires. -/

/-- Timeout of the drag buffer (`AUTO_CLEAR_MS` in `dragState.ts`). -/
def AUTO_CLEAR_MS : Nat := 10000

/-- State of the drag hand-off buffer plus the clock used to model
`setTimeout`. -/
structure DragBuffer where
  pending : Option (List SplitFile)
  timer : Option Nat
  now : Nat
deriving DecidableEq

namespace pendingDrag

/-- Embedding of `pendingDrag.set`: cancel any scheduled clear, store the
files verbatim, schedule a clear `AUTO_CLEAR_MS` from now. -/
def set (files : List SplitFile) (b : DragBuffer) : DragBuffer :=
  { pending := some files, timer := some (b.now + AUTO_CLEAR_MS), now := b.now }

/-- Embedding of `pendingDrag.take`: cancel any scheduled clear, return the
stored files, leave the slot empty. -/
def take (b : DragBuffer) : Option (List SplitFile) × DragBuffer :=
  (b.pending, { pending := none, timer := none, now := b.now })

/-- Embedding of `pendingDrag.clear`. -/
def clear (b : DragBuffer) : DragBuffer :=
  { pending := none, timer := none, now := b.now }

/-- Advance the clock by `d` milliseconds; if the scheduled auto-clear
deadline is reached, the `setTimeout` callback runs and empties the slot. -/
def advance (d : Nat) (b : DragBuffer) : DragBuffer :=
  match b.timer with
  | some t =>
      if t ≤ b.now + d then { pending := none, timer := none, now := b.now + d }
      else { b with now := b.now + d }
  | none => { b with now := b.now + d }

end pendingDrag

/-! Directory tree (`treeHelpers.ts`).  A JavaScript `Map` is embedded as an
insertion-ordered association list: `Map.set` on a fresh key appends at the
end, on an existing key it updates in place. -/

/-- Embedding of the `DirEntry` interface. -/
inductive DirEntry where
  | mk (files : List SplitFile) (subdirs : List (String × DirEntry))

/-- Direct files of a directory entry. -/
def DirEntry.files : DirEntry → List SplitFile
  | DirEntry.mk fs _ => fs

/-- Immediate subdirectories of a directory entry, in map insertion order. -/
def DirEntry.subdirs : DirEntry → List (String × DirEntry)
  | DirEntry.mk _ sd => sd

/-- Embedding of `subdirs.get(dir)` on the insertion-ordered map. -/
def lookupAssoc (sd : List (String × DirEntry)) (k : String) : Option DirEntry :=
  match sd with
  | [] => none
  | (k', e) :: tl => if k' = k then some e else lookupAssoc tl k

/-- Embedding of `subdirs.set(dir, e)`: replace in place when the key exists,
append at the end when it does not. -/
def setSubdir (sd : List (String × DirEntry)) (k : String) (e : DirEntry) :
    List (String × DirEntry) :=
  match sd with
  | [] => [(k, e)]
  | (k', e') :: tl =>
      if k' = k then (k', e) :: tl else (k', e') :: setSubdir tl k e

/-- Insert one file along its directory segments (the loop body of
`buildDirTree`): walk/create one subdirectory per segment, then push the
file at the leaf level. -/
def insertPath (f : SplitFile) : List String → DirEntry → DirEntry
  | [], DirEntry.mk fs sd => DirEntry.mk (fs ++ [f]) sd
  | d :: rest, DirEntry.mk fs sd =>
      let child :=
        match lookupAssoc sd d with
        | some e => e
        | none => DirEntry.mk [] []
      DirEntry.mk fs (setSubdir sd d (insertPath f rest child))

/-- Embedding of `buildDirTree`: start from an empty root and insert every
file under its `/`-separated directory segments (all path parts but the
last). -/
def buildDirTree (files : List SplitFile) : DirEntry :=
  files.foldl (fun t f => insertPath f ((f.path.splitOn "/").dropLast) t)
    (DirEntry.mk [] [])

mutual

/-- Embedding of `collectAllFiles`: the entry's direct files followed by
each subdirectory's files, subdirectories in map order. -/
def collectAllFiles : DirEntry → List SplitFile
  | DirEntry.mk fs sd => fs ++ collectAllFilesList sd

/-- Concatenation of `collectAllFiles` over an association list of
subdirectories, in order. -/
def collectAllFilesList : List (String × DirEntry) → List SplitFile
  | [] => []
  | (_, e) :: tl => collectAllFiles e ++ collectAllFilesList tl

end

/-- Embedding of the `TreeNode` union from `treeNodes.ts`. -/
inductive TreeNode where
  | group (groupId : Nat) (label : String) (fileCount : Nat)
  | folder (folderPath : String) (name : String) (groupId : MoveTarget)
      (files : List SplitFile)
  | file (f : SplitFile) (groupId : MoveTarget)
  | action (actionId : String) (label : String)
deriving DecidableEq

/-- Comparator used on subdirectory entries, `a[0].localeCompare(b[0])`
modelled as the lexicographic string order. -/
def subdirLE (a b : String × DirEntry) : Prop := a.1 ≤ b.1

/-- Comparator used on files, `a.path.localeCompare(b.path)` modelled as the
lexicographic string order. -/
def fileLE (a b : SplitFile) : Prop := a.path ≤ b.path

instance : DecidableRel subdirLE :=
  fun a b => inferInstanceAs (Decidable (a.1 ≤ b.1))

instance : DecidableRel fileLE :=
  fun a b => inferInstanceAs (Decidable (a.path ≤ b.path))

instance : IsTotal (String × DirEntry) subdirLE :=
  ⟨fun a b => le_total a.1 b.1⟩

instance : IsTrans (String × DirEntry) subdirLE :=
  ⟨fun _ _ _ hab hbc => le_trans hab hbc⟩

instance : IsTotal SplitFile fileLE :=
  ⟨fun a b => le_total a.path b.path⟩

instance : IsTrans SplitFile fileLE :=
  ⟨fun _ _ _ hab hbc => le_trans hab hbc⟩

/-- Full path of a child of `parentPath` named `name` (the
`parentPath ? parentPath + "/" + name : name` expression). -/
def childPath (parentPath name : String) : String :=
  if parentPath = "" then name else parentPath ++ "/" ++ name

/-- Embedding of `dirEntryToNodes`: one `FolderNode` per immediate
subdirectory in sorted name order, then one `FileNode` per direct file in
sorted path order.  JavaScript `Array.prototype.sort` is stable, so any
stable sorted rearrangement is the unique faithful embedding;
`List.insertionSort` is one. -/
def dirEntryToNodes (entry : DirEntry) (parentPath : String)
    (groupId : MoveTarget) : List TreeNode :=
  (List.insertionSort subdirLE entry.subdirs).map (fun nd =>
      TreeNode.folder (childPath parentPath nd.1) nd.1 groupId
        (collectAllFiles nd.2)) ++
    (List.insertionSort fileLE entry.files).map (fun f =>
      TreeNode.file f groupId)

/-- Flattening pass of `collectDraggedFiles`: `FileNode`s contribute their
file, `FolderNode`s their recursive file list, other nodes nothing. -/
def draggedRaw : List TreeNode → List SplitFile
  | [] => []
  | TreeNode.file f _ :: tl => f :: draggedRaw tl
  | TreeNode.folder _ _ _ fs :: tl => fs ++ draggedRaw tl
  | _ :: tl => draggedRaw tl

/-- Dedup-by-path pass of `collectDraggedFiles`: keep a file when its path
has not been seen yet (first occurrence wins). -/
def dedupByPath (seen : List String) : List SplitFile → List SplitFile
  | [] => []
  | f :: tl =>
      if f.path ∈ seen then dedupByPath seen tl
      else f :: dedupByPath (f.path :: seen) tl

/-- Embedding of `collectDraggedFiles`. -/
def collectDraggedFiles (source : List TreeNode) : List SplitFile :=
  dedupByPath [] (draggedRaw source)

/-! Concrete values used by counterexamples and witnesses. -/

/-- Sample file `a.ts`. -/
def fA : SplitFile := { path := "a.ts", status := FileStatus.M }

/-- Sample file `b.ts`. -/
def fB : SplitFile := { path := "b.ts", status := FileStatus.M }

/-- Drag buffer in its initial state at time zero. -/
def bInit : DragBuffer := { pending := none, timer := none, now := 0 }

/-! Helper lemmas for the drag-buffer dedup pass. -/

/-- Characterization of the paths surviving `dedupByPath`: exactly the input
paths not already seen. -/
theorem dedupByPath_path_iff (l : List SplitFile) :
    ∀ seen p, p ∈ (dedupByPath seen l).map SplitFile.path ↔
      p ∈ l.map SplitFile.path ∧ p ∉ seen := by
  induction l with
  | nil => simp [dedupByPath]
  | cons f tl ih =>
    intro seen p
    by_cases hf : f.path ∈ seen
    · simp only [dedupByPath, if_pos hf, ih seen p, List.map_cons, List.mem_cons]
      constructor
      · rintro ⟨h1, h2⟩
        exact ⟨Or.inr h1, h2⟩
      · rintro ⟨h1 | h1, h2⟩
        · exact absurd (h1 ▸ hf) h2
        · exact ⟨h1, h2⟩
    · simp only [dedupByPath, if_neg hf, List.map_cons, List.mem_cons,
        ih (f.path :: seen) p]
      constructor
      · rintro (h1 | ⟨h1, h2⟩)
        · exact ⟨Or.inl h1, h1 ▸ hf⟩
        · exact ⟨Or.inr h1, fun hc => h2 (Or.inr hc)⟩
      · rintro ⟨h1 | h1, h2⟩
        · exact Or.inl h1
        · by_cases hp : p = f.path
          · exact Or.inl hp
          · exact Or.inr ⟨h1, by simp [hp, h2]⟩

/-- The paths surviving `dedupByPath` are pairwise distinct. -/
theorem dedupByPath_nodup (l : List SplitFile) :
    ∀ seen, ((dedupByPath seen l).map SplitFile.path).Nodup := by
  induction l with
  | nil => simp [dedupByPath]
  | cons f tl ih =>
    intro seen
    by_cases hf : f.path ∈ seen
    · simpa [dedupByPath, hf] using ih seen
    · simp only [dedupByPath, if_neg hf, List.map_cons, List.nodup_cons]
      refine ⟨fun hmem => ?_, ih (f.path :: seen)⟩
      have := (dedupByPath_path_iff tl (f.path :: seen) f.path).mp hmem
      exact this.2 (List.mem_cons_self _ _)

/-- C10: reset() empties groups and unassigned, sets active to false, and
restores baseRef to "main" and sourceRef to ""; no field of the session
retains information from the previous split (the result is the same for any
two prior sessions). -/
theorem reset_restores_defaults (s t : SplitModel) :
    SplitModel.reset s =
      { groups := [], unassigned := [], baseBranch := "main",
        sourceBranch := "", active := false } ∧
    SplitModel.reset s = SplitModel.reset t :=
  ⟨rfl, rfl⟩

/-- C2: moveFiles with a numeric target id that is not the id of any current
group returns false and leaves the whole session exactly unchanged. -/
theorem moveFiles_invalid_target (s : SplitModel) (files : List SplitFile)
    (gid : Nat) (h : ∀ g ∈ s.groups, g.id ≠ gid) :
    SplitModel.moveFiles files (MoveTarget.group gid) s = (false, s) := by
  have hfalse : s.groups.any (fun g => g.id == gid) = false := by
    simp only [List.any_eq_false, beq_iff_eq]
    exact h
  simp [SplitModel.moveFiles, hfalse]

/-- Witness for C2 at a concrete session and the stale target id 99. -/
theorem moveFiles_invalid_target_witness :
    SplitModel.moveFiles [fA] (MoveTarget.group 99)
      (SplitModel.startSplit 2 [fA, fB] "main" "feature" SplitModel.init).2 =
      (false,
        (SplitModel.startSplit 2 [fA, fB] "main" "feature" SplitModel.init).2) :=
  moveFiles_invalid_target _ [fA] 99 (by decide)

/-- C3: startSplit fails with a distinct validation error for each violated
precondition (checked in the order numPrs, baseRef, sourceRef, files) and
leaves the session unchanged on failure; when all preconditions hold it
creates exactly numPrs groups with ids 1..numPrs, labels "PR {id}" and empty
files, puts all input files into unassigned and sets active, regardless of
the prior session content. -/
theorem startSplit_spec (numPrs : Nat) (files : List SplitFile)
    (base source : String) (s : SplitModel) :
    (numPrs < 1 →
      SplitModel.startSplit numPrs files base source s =
        (some "numPrs must be at least 1", s)) ∧
    (1 ≤ numPrs → base = "" →
      SplitModel.startSplit numPrs files base source s =
        (some "baseBranch is required", s)) ∧
    (1 ≤ numPrs → base ≠ "" → source = "" →
      SplitModel.startSplit numPrs files base source s =
        (some "sourceBranch is required", s)) ∧
    (1 ≤ numPrs → base ≠ "" → source ≠ "" → files = [] →
      SplitModel.startSplit numPrs files base source s =
        (some "files must not be empty", s)) ∧
    (["numPrs must be at least 1", "baseBranch is required",
      "sourceBranch is required", "files must not be empty"] :
        List String).Nodup ∧
    (1 ≤ numPrs → base ≠ "" → source ≠ "" → files ≠ [] →
      ∃ s', SplitModel.startSplit numPrs files base source s = (none, s') ∧
        s'.groups.length = numPrs ∧
        s'.groups.map (fun g => g.id) = List.range' 1 numPrs ∧
        (∀ g ∈ s'.groups, g.label = "PR " ++ toString g.id ∧ g.files = []) ∧
        s'.unassigned = files ∧ s'.baseBranch = base ∧
        s'.sourceBranch = source ∧ s'.active = true) := by
  refine ⟨?_, ?_, ?_, ?_, by decide, ?_⟩
  · intro h
    simp [SplitModel.startSplit, h]
  · intro h1 h2
    have hn : ¬ numPrs < 1 := by omega
    simp [SplitModel.startSplit, hn, h2]
  · intro h1 h2 h3
    have hn : ¬ numPrs < 1 := by omega
    simp [SplitModel.startSplit, hn, h2, h3]
  · intro h1 h2 h3 h4
    have hn : ¬ numPrs < 1 := by omega
    simp [SplitModel.startSplit, hn, h2, h3, h4]
  · intro h1 h2 h3 h4
    have hn : ¬ numPrs < 1 := by omega
    have hlen : ¬ files.length = 0 := by
      simpa [List.length_eq_zero] using h4
    refine ⟨{ groups :=
                (List.range numPrs).map (fun i =>
                  { id := i + 1, label := "PR " ++ toString (i + 1),
                    files := [] }),
              unassigned := files, baseBranch := base,
              sourceBranch := source, active := true },
      ?_, ?_, ?_, ?_, rfl, rfl, rfl, rfl⟩
    · simp [SplitModel.startSplit, hn, h2, h3, hlen]
    · simp
    · simp only [List.map_map, List.range'_eq_map_range]
      exact List.map_congr_left (fun i _ => by simp [Nat.add_comm])
    · intro g hg
      simp only [List.mem_map] at hg
      obtain ⟨i, -, rfl⟩ := hg
      exact ⟨rfl, rfl⟩

/-- Witness for C3: a failing call reports the numPrs error and changes
nothing; a successful call activates the session. -/
theorem startSplit_spec_witness :
    SplitModel.startSplit 0 [fA] "main" "feature" SplitModel.init =
      (some "numPrs must be at least 1", SplitModel.init) ∧
    (SplitModel.startSplit 2 [fA] "main" "feature" SplitModel.init).2.active =
      true := by
  refine ⟨(startSplit_spec 0 [fA] "main" "feature" SplitModel.init).1
    (by decide), ?_⟩
  obtain ⟨s', heq, -, -, -, -, -, -, hact⟩ :=
    (startSplit_spec 2 [fA] "main" "feature" SplitModel.init).2.2.2.2.2
      (by decide) (by decide) (by decide) (by decide)
  rw [heq]
  exact hact

/-- C5 counterexample: `pendingDrag.set` stores its argument verbatim, so
setting a list with a duplicated path and taking it back returns two entries
with the same path — `set` itself does not deduplicate. -/
theorem drag_dedup_cex :
    (pendingDrag.take (pendingDrag.set [fA, fA] bInit)).1 = some [fA, fA] ∧
    ¬ (([fA, fA] : List SplitFile).map SplitFile.path).Nodup :=
  ⟨rfl, by decide⟩

/-- C5 amended: deduplication by path (first occurrence wins) is performed
by `collectDraggedFiles` before the payload reaches the drag buffer; `set`
stores its argument verbatim, so a `take` after `set (collectDraggedFiles
source)` returns a payload whose paths are pairwise distinct and exactly the
paths occurring in the dragged nodes. -/
theorem collectDraggedFiles_dedup (source : List TreeNode) (b : DragBuffer) :
    (pendingDrag.take (pendingDrag.set (collectDraggedFiles source) b)).1 =
      some (collectDraggedFiles source) ∧
    ((collectDraggedFiles source).map SplitFile.path).Nodup ∧
    (∀ p, p ∈ (collectDraggedFiles source).map SplitFile.path ↔
      p ∈ (draggedRaw source).map SplitFile.path) := by
  refine ⟨rfl, dedupByPath_nodup _ [], fun p => ?_⟩
  simpa using dedupByPath_path_iff (draggedRaw source) [] p

/-- C6: in the drag buffer state machine, set then take before the timeout
returns the payload and leaves the slot empty, a second immediate take
returns empty, set followed by time advancing to the 10-second timeout then
take returns empty, and a later set overwrites the payload and resets the
deadline. -/
theorem drag_buffer_lifecycle (b : DragBuffer) (x y : List SplitFile)
    (d e : Nat) (hd : d < AUTO_CLEAR_MS) (he : AUTO_CLEAR_MS ≤ e) :
    (pendingDrag.take (pendingDrag.advance d (pendingDrag.set x b))).1 =
      some x ∧
    (pendingDrag.take
      (pendingDrag.advance d (pendingDrag.set x b))).2.pending = none ∧
    (pendingDrag.take
      ((pendingDrag.take
        (pendingDrag.advance d (pendingDrag.set x b))).2)).1 = none ∧
    (pendingDrag.take (pendingDrag.advance e (pendingDrag.set x b))).1 =
      none ∧
    (pendingDrag.set y
      (pendingDrag.advance d (pendingDrag.set x b))).pending = some y ∧
    (pendingDrag.set y
      (pendingDrag.advance d (pendingDrag.set x b))).timer =
      some (b.now + d + AUTO_CLEAR_MS) := by
  have h1 : ¬ (b.now + AUTO_CLEAR_MS ≤ b.now + d) := by
    intro hcon
    exact absurd (Nat.le_of_add_le_add_left hcon) (Nat.not_le_of_lt hd)
  have h2 : b.now + AUTO_CLEAR_MS ≤ b.now + e := Nat.add_le_add_left he _
  refine ⟨?_, ?_, ?_, ?_, ?_, ?_⟩ <;>
    simp [pendingDrag.set, pendingDrag.advance, pendingDrag.take, h1, h2]

/-- Witness for C6 at a concrete buffer, payload, and delays 5000 and 10000
milliseconds. -/
theorem drag_buffer_lifecycle_witness :
    (pendingDrag.take
      (pendingDrag.advance 5000 (pendingDrag.set [fA] bInit))).1 =
      some [fA] ∧
    (pendingDrag.take
      (pendingDrag.advance 10000 (pendingDrag.set [fA] bInit))).1 = none := by
  have h := drag_buffer_lifecycle bInit [fA] [fB] 5000 10000
    (by decide) (by decide)
  exact ⟨h.1, h.2.2.2.1⟩

/-! Helper lemmas about `removePaths`, `appendToFirst` and group lists. -/

/-- Removing paths distributes over list append. -/
theorem removePaths_append (ps : List String) (l l' : List SplitFile) :
    removePaths ps (l ++ l') = removePaths ps l ++ removePaths ps l' :=
  List.filter_append _ _

/-- Removing the same paths twice is the same as removing them once. -/
theorem removePaths_idem (ps : List String) (l : List SplitFile) :
    removePaths ps (removePaths ps l) = removePaths ps l := by
  simp [removePaths, List.filter_filter]

/-- Re-filtering every group by the same paths a second time changes
nothing. -/
theorem map_filt_idem (P : List String) (gs : List SplitGroup) :
    (gs.map (fun g => { g with files := removePaths P g.files })).map
        (fun g => { g with files := removePaths P g.files }) =
      gs.map (fun g => { g with files := removePaths P g.files }) := by
  rw [List.map_map]
  exact List.map_congr_left (fun g _ => by
    simp [Function.comp, removePaths_idem])

/-- Appending files to the first matching group does not change the id
sequence. -/
theorem appendToFirst_map_id (gs : List SplitGroup) (gid : Nat)
    (files : List SplitFile) :
    (appendToFirst gs gid files).map (fun g => g.id) =
      gs.map (fun g => g.id) := by
  induction gs with
  | nil => rfl
  | cons g tl ih =>
    by_cases h : g.id = gid <;> simp [appendToFirst, h, ih]

/-- Two group lists with the same id sequence agree on the target-existence
check of `moveFiles`. -/
theorem any_id_congr (gs gs' : List SplitGroup) (gid : Nat)
    (h : gs.map (fun g => g.id) = gs'.map (fun g => g.id)) :
    gs.any (fun g => g.id == gid) = gs'.any (fun g => g.id == gid) := by
  have h1 : ∀ l : List SplitGroup,
      l.any (fun g => g.id == gid) =
        (l.map (fun g => g.id)).any (fun i => i == gid) := by
    intro l
    induction l with
    | nil => rfl
    | cons g tl ih => simp [ih]
  rw [h1, h1, h]

/-- Filtering every group by the batch's paths and re-appending the batch a
second time reproduces the state after the first append, when the batch is
a single file (its path is removed by the filter before each append). -/
theorem appendToFirst_refilter (P : List String) (gid : Nat) (f : SplitFile)
    (hf : removePaths P [f] = []) (gs : List SplitGroup) :
    appendToFirst
      ((appendToFirst
          (gs.map (fun g => { g with files := removePaths P g.files }))
          gid [f]).map (fun g => { g with files := removePaths P g.files }))
      gid [f] =
    appendToFirst
      (gs.map (fun g => { g with files := removePaths P g.files }))
      gid [f] := by
  induction gs with
  | nil => rfl
  | cons g tl ih =>
    by_cases h : g.id = gid
    · simp [appendToFirst, h, removePaths_append, removePaths_idem, hf,
        map_filt_idem]
    · simp [appendToFirst, h, removePaths_idem, ih]

/-- C8: moving a single file to the same target twice in a row produces
exactly the same result (boolean and full session state) as moving it
once. -/
theorem moveFiles_idempotent (s : SplitModel) (f : SplitFile)
    (t : MoveTarget) :
    SplitModel.moveFiles [f] t ((SplitModel.moveFiles [f] t s).2) =
      SplitModel.moveFiles [f] t s := by
  have hfp : removePaths [f.path] [f] = [] := by
    simp [removePaths]
  cases t with
  | unassigned =>
    simp [SplitModel.moveFiles, removePaths_append, removePaths_idem, hfp,
      map_filt_idem]
  | group gid =>
    by_cases hany : s.groups.any (fun g => g.id == gid) = true
    · have hids : (appendToFirst
          (s.groups.map (fun g =>
            { g with files := removePaths [f.path] g.files }))
          gid [f]).map (fun g => g.id) = s.groups.map (fun g => g.id) := by
        rw [appendToFirst_map_id, List.map_map]
        exact List.map_congr_left fun g _ => rfl
      have hany1 : (appendToFirst
          (s.groups.map (fun g =>
            { g with files := removePaths [f.path] g.files }))
          gid [f]).any (fun g => g.id == gid) = true := by
        rw [any_id_congr _ s.groups gid hids]
        exact hany
      simp [SplitModel.moveFiles, hany, hany1, removePaths_idem,
        appendToFirst_refilter _ _ _ hfp]
    · simp only [Bool.not_eq_true] at hany
      simp [SplitModel.moveFiles, hany]

/-- A `find?` over a list split around the first satisfying element returns
that element. -/
theorem find?_eq_some_of_split {α : Type} (p : α → Bool) (pre post : List α)
    (a : α) (hpre : ∀ x ∈ pre, p x = false) (ha : p a = true) :
    List.find? p (pre ++ a :: post) = some a := by
  induction pre with
  | nil => simp [List.find?_cons_of_pos, ha]
  | cons b tl ih =>
    have hb := hpre b (List.mem_cons_self b tl)
    rw [List.cons_append, List.find?_cons_of_neg _ (by simp [hb])]
    exact ih (fun x hx => hpre x (List.mem_cons_of_mem _ hx))

/-- C7: deleteGroup on a present id removes exactly that group, appends its
files to the end of unassigned in their existing order, leaves every other
group (ids, labels, files) and every other session field untouched, and
returns true; on an absent id it returns false and changes nothing. -/
theorem deleteGroup_spec (s : SplitModel) (gid : Nat) :
    (∀ pre g post,
      (s.groups.map (fun x => x.id)).Nodup →
      s.groups = pre ++ g :: post → g.id = gid →
      SplitModel.deleteGroup gid s =
        (true,
          { s with
            unassigned := s.unassigned ++ g.files,
            groups := pre ++ post })) ∧
    ((∀ g ∈ s.groups, g.id ≠ gid) →
      SplitModel.deleteGroup gid s = (false, s)) := by
  constructor
  · intro pre g post hnd hsplit hgid
    rw [hsplit, List.map_append, List.map_cons, List.nodup_append] at hnd
    obtain ⟨-, hnd2, hdisj⟩ := hnd
    have hpre : ∀ x ∈ pre, x.id ≠ gid := by
      intro x hx hc
      exact hdisj (List.mem_map_of_mem _ hx)
        (hc ▸ hgid ▸ List.mem_cons_self _ _)
    have hpost : ∀ x ∈ post, x.id ≠ gid := by
      intro x hx hc
      rw [List.nodup_cons] at hnd2
      exact hnd2.1 (hgid ▸ hc ▸ List.mem_map_of_mem _ hx)
    have hfind : List.find? (fun x => x.id == gid) s.groups = some g := by
      rw [hsplit]
      exact find?_eq_some_of_split _ pre post g
        (fun x hx => by simp [hpre x hx]) (by simp [hgid])
    have hfilter :
        s.groups.filter (fun x => decide (x.id ≠ gid)) = pre ++ post := by
      rw [hsplit, List.filter_append]
      congr 1
      · exact List.filter_eq_self.mpr (fun x hx => by simp [hpre x hx])
      · rw [List.filter_cons_of_neg (by simp [hgid])]
        exact List.filter_eq_self.mpr (fun x hx => by simp [hpost x hx])
    simp only [SplitModel.deleteGroup, hfind]
    rw [hfilter]
  · intro hno
    have hfind : List.find? (fun x => x.id == gid) s.groups = none :=
      List.find?_eq_none.mpr (fun x hx => by simp [hno x hx])
    simp [SplitModel.deleteGroup, hfind]

/-- Witness for C7: deleting group 1 from a concrete two-group session moves
its file to the end of unassigned and keeps group 2 untouched. -/
theorem deleteGroup_spec_witness :
    SplitModel.deleteGroup 1
      { groups := [{ id := 1, label := "PR 1", files := [fA] },
                   { id := 2, label := "PR 2", files := [] }],
        unassigned := [fB], baseBranch := "main",
        sourceBranch := "feature", active := true } =
      (true,
        { groups := [{ id := 2, label := "PR 2", files := [] }],
          unassigned := [fB, fA], baseBranch := "main",
          sourceBranch := "feature", active := true }) := by
  have h := (deleteGroup_spec
    { groups := [{ id := 1, label := "PR 1", files := [fA] },
                 { id := 2, label := "PR 2", files := [] }],
      unassigned := [fB], baseBranch := "main",
      sourceBranch := "feature", active := true } 1).1
    [] { id := 1, label := "PR 1", files := [fA] }
    [{ id := 2, label := "PR 2", files := [] }]
    (by decide) rfl rfl
  exact h

/-! Helper lemmas for the directory-tree builder. -/

/-- Collecting over concatenated subdirectory lists concatenates the
collected files. -/
theorem collectAllFilesList_append (a b : List (String × DirEntry)) :
    collectAllFilesList (a ++ b) =
      collectAllFilesList a ++ collectAllFilesList b := by
  induction a with
  | nil => rfl
  | cons p tl ih =>
    obtain ⟨k, e⟩ := p
    simp [collectAllFilesList, ih]

/-- Setting a key that is absent from the map appends the new entry at the
end, in `Map` insertion order. -/
theorem lookupAssoc_none_setSubdir (sd : List (String × DirEntry))
    (k : String) (e : DirEntry) (h : lookupAssoc sd k = none) :
    setSubdir sd k e = sd ++ [(k, e)] := by
  induction sd with
  | nil => rfl
  | cons p tl ih =>
    obtain ⟨k', e'⟩ := p
    by_cases hk : k' = k
    · simp [lookupAssoc, hk] at h
    · simp only [lookupAssoc, if_neg hk] at h
      simp [setSubdir, hk, ih h]

/-- A present key splits the map around its entry, and setting that key
replaces the entry in place. -/
theorem lookupAssoc_some_split (sd : List (String × DirEntry)) (k : String)
    (c : DirEntry) (h : lookupAssoc sd k = some c) :
    ∃ pre post, sd = pre ++ (k, c) :: post ∧
      ∀ e, setSubdir sd k e = pre ++ (k, e) :: post := by
  induction sd with
  | nil => exact absurd h (by simp [lookupAssoc])
  | cons p tl ih =>
    obtain ⟨k', e'⟩ := p
    by_cases hk : k' = k
    · subst hk
      simp [lookupAssoc] at h
      subst h
      exact ⟨[], tl, rfl, fun e => by simp [setSubdir]⟩
    · simp only [lookupAssoc, if_neg hk] at h
      obtain ⟨pre, post, hsd, hset⟩ := ih h
      exact ⟨(k', e') :: pre, post, by simp [hsd],
        fun e => by simp [setSubdir, hk, hset e]⟩

/-- Inserting one file into the tree adds exactly that file to the
collected multiset. -/
theorem collect_insertPath (f : SplitFile) :
    ∀ (parts : List String) (t : DirEntry),
      (collectAllFiles (insertPath f parts t)).Perm
        (f :: collectAllFiles t) := by
  intro parts
  induction parts with
  | nil =>
    intro t
    cases t with
    | mk fs sd =>
      simp only [insertPath, collectAllFiles]
      rw [List.perm_iff_count]
      intro a
      by_cases haf : a = f <;>
        simp [haf, List.count_append, List.count_cons] <;> omega
  | cons d rest ih =>
    intro t
    cases t with
    | mk fs sd =>
      cases hl : lookupAssoc sd d with
      | none =>
        have hset := lookupAssoc_none_setSubdir sd d
          (insertPath f rest (DirEntry.mk [] [])) hl
        rw [List.perm_iff_count]
        intro a
        have h1 := List.perm_iff_count.mp
          (ih (DirEntry.mk [] [])) a
        by_cases haf : a = f <;>
          simp [haf, insertPath, hl, hset, collectAllFiles,
            collectAllFilesList_append, collectAllFilesList,
            List.count_append, List.count_cons] at h1 ⊢ <;>
          omega
      | some c =>
        obtain ⟨pre, post, hsd, hset⟩ := lookupAssoc_some_split sd d c hl
        rw [List.perm_iff_count]
        intro a
        have h1 := List.perm_iff_count.mp (ih c) a
        subst hsd
        by_cases haf : a = f <;>
          simp [haf, insertPath, hl, hset, collectAllFiles,
            collectAllFilesList_append, collectAllFilesList,
            List.count_append, List.count_cons] at h1 ⊢ <;>
          omega

/-- C9: flattening the built directory tree returns a permutation of the
input file list — building the tree and re-flattening loses and duplicates
nothing. -/
theorem buildDirTree_roundtrip (files : List SplitFile) :
    (collectAllFiles (buildDirTree files)).Perm files := by
  suffices h : ∀ (fs : List SplitFile) (t : DirEntry),
      (collectAllFiles
        (fs.foldl
          (fun t f => insertPath f ((f.path.splitOn "/").dropLast) t)
          t)).Perm (collectAllFiles t ++ fs) by
    simpa [buildDirTree, collectAllFiles, collectAllFilesList] using
      h files (DirEntry.mk [] [])
  intro fs
  induction fs with
  | nil =>
    intro t
    simp
  | cons f tl ih =>
    intro t
    have h1 := ih (insertPath f ((f.path.splitOn "/").dropLast) t)
    have h2 := collect_insertPath f ((f.path.splitOn "/").dropLast) t
    exact h1.trans
      ((h2.append (List.Perm.refl tl)).trans List.perm_middle.symm)

/-- C4: the projected node list is exactly one folder node per immediate
subdirectory, in ascending name order, followed by one file node per direct
file, in ascending path order; determinism on unchanged input is inherent
in the function being pure. -/
theorem dirEntryToNodes_ordering (entry : DirEntry) (parentPath : String)
    (groupId : MoveTarget) :
    ∃ (ds : List (String × DirEntry)) (fs : List SplitFile),
      dirEntryToNodes entry parentPath groupId =
        ds.map (fun nd =>
          TreeNode.folder (childPath parentPath nd.1) nd.1 groupId
            (collectAllFiles nd.2)) ++
        fs.map (fun f => TreeNode.file f groupId) ∧
      ds.Perm entry.subdirs ∧
      (ds.map Prod.fst).Sorted (fun a b => a ≤ b) ∧
      fs.Perm entry.files ∧
      (fs.map SplitFile.path).Sorted (fun a b => a ≤ b) := by
  refine ⟨List.insertionSort subdirLE entry.subdirs,
    List.insertionSort fileLE entry.files, rfl,
    List.perm_insertionSort _ _, ?_, List.perm_insertionSort _ _, ?_⟩
  · have h := List.sorted_insertionSort subdirLE entry.subdirs
    exact (List.pairwise_map).mpr h
  · have h := List.sorted_insertionSort fileLE entry.files
    exact (List.pairwise_map).mpr h

/-! Helper lemmas for the partition law. -/

/-- Path projection commutes with `removePaths`. -/
theorem map_path_removePaths (ps : List String) (l : List SplitFile) :
    (removePaths ps l).map SplitFile.path =
      (l.map SplitFile.path).filter (fun p => decide (p ∉ ps)) := by
  induction l with
  | nil => rfl
  | cons f tl ih =>
    by_cases h : f.path ∈ ps <;>
      simp [removePaths, List.filter_cons, h] <;>
      simpa [removePaths] using ih

/-- Filtering every group's path list filters the flattened path list. -/
theorem groups_paths_filter (P : List String) (gs : List SplitGroup) :
    ((gs.map (fun g => { g with files := removePaths P g.files })).map
        (fun g => g.files.map SplitFile.path)).flatten =
      ((gs.map (fun g => g.files.map SplitFile.path)).flatten).filter
        (fun p => decide (p ∉ P)) := by
  induction gs with
  | nil => rfl
  | cons g tl ih =>
    simp only [List.map_cons, List.flatten_cons, List.filter_append,
      map_path_removePaths, ih]

/-- Splitting off the kept and removed paths and re-appending the batch is a
permutation of the original paths, when the batch is duplicate-free and
contained in the original duplicate-free path list. -/
theorem filter_union_perm (P B : List String) (hB : B.Nodup)
    (hsub : ∀ p ∈ B, p ∈ P) (hP : P.Nodup) :
    (P.filter (fun p => decide (p ∉ B)) ++ B).Perm P := by
  have h1 := List.filter_append_perm (fun p => decide (p ∉ B)) P
  have h2 : P.filter (fun p => !decide (p ∉ B)) =
      P.filter (fun p => decide (p ∈ B)) :=
    List.filter_congr (fun x _ => by simp)
  rw [h2] at h1
  have h3 : (P.filter (fun p => decide (p ∈ B))).Perm B := by
    refine (List.perm_ext_iff_of_nodup (List.Nodup.filter _ hP) hB).mpr ?_
    intro a
    simp only [List.mem_filter, decide_eq_true_iff]
    exact ⟨fun h => h.2, fun h => ⟨hsub a h, h⟩⟩
  exact (List.Perm.append_left _ h3.symm).trans h1

/-- A successful `find?` splits its list around the found element, with
every earlier element failing the test. -/
theorem find?_split {α : Type} (p : α → Bool) (l : List α) (a : α)
    (h : List.find? p l = some a) :
    ∃ pre post, l = pre ++ a :: post ∧ ∀ x ∈ pre, p x = false := by
  induction l with
  | nil => cases h
  | cons b tl ih =>
    by_cases hb : p b = true
    · rw [List.find?_cons_of_pos _ hb] at h
      obtain rfl : b = a := by injection h
      exact ⟨[], tl, rfl, by simp⟩
    · have hb' : p b = false := by revert hb; cases p b <;> simp
      rw [List.find?_cons_of_neg _ (by simp [hb'])] at h
      obtain ⟨pre, post, hsplit, hpre⟩ := ih h
      exact ⟨b :: pre, post, by simp [hsplit], by
        intro x hx
        rcases List.mem_cons.mp hx with rfl | hx
        · exact hb'
        · exact hpre x hx⟩

/-- With duplicate-free ids, dropping the groups with the given id from a
list split around the matching group keeps exactly the other groups. -/
theorem filter_ne_split (gs : List SplitGroup) (gid : Nat)
    (pre post : List SplitGroup) (g : SplitGroup)
    (hnd : (gs.map (fun x => x.id)).Nodup) (hsplit : gs = pre ++ g :: post)
    (hgid : g.id = gid) :
    gs.filter (fun x => decide (x.id ≠ gid)) = pre ++ post := by
  subst hsplit
  rw [List.map_append, List.map_cons, List.nodup_append] at hnd
  obtain ⟨-, hnd2, hdisj⟩ := hnd
  have hpre : ∀ x ∈ pre, x.id ≠ gid := fun x hx hc =>
    hdisj (List.mem_map_of_mem _ hx) (hc ▸ hgid ▸ List.mem_cons_self _ _)
  have hpost : ∀ x ∈ post, x.id ≠ gid := by
    intro x hx hc
    rw [List.nodup_cons] at hnd2
    exact hnd2.1 (hgid ▸ hc ▸ List.mem_map_of_mem _ hx)
  rw [List.filter_append]
  congr 1
  · exact List.filter_eq_self.mpr (fun x hx => by simp [hpre x hx])
  · rw [List.filter_cons_of_neg (by simp [hgid])]
    exact List.filter_eq_self.mpr (fun x hx => by simp [hpost x hx])

/-- Filtering every group by a path set keeps the id sequence. -/
theorem map_filt_map_id (P : List String) (gs : List SplitGroup) :
    (gs.map (fun g => { g with files := removePaths P g.files })).map
        (fun g => g.id) =
      gs.map (fun g => g.id) := by
  rw [List.map_map]
  exact List.map_congr_left fun g _ => rfl

/-- Relabeling the first matching group keeps the id sequence. -/
theorem setLabelFirst_map_id (gs : List SplitGroup) (gid : Nat)
    (label : String) :
    (setLabelFirst gs gid label).map (fun g => g.id) =
      gs.map (fun g => g.id) := by
  induction gs with
  | nil => rfl
  | cons g tl ih =>
    by_cases h : g.id = gid <;> simp [setLabelFirst, h, ih]

/-- Relabeling the first matching group keeps every group's path list. -/
theorem setLabelFirst_proj (gs : List SplitGroup) (gid : Nat)
    (label : String) :
    (setLabelFirst gs gid label).map (fun g => g.files.map SplitFile.path) =
      gs.map (fun g => g.files.map SplitFile.path) := by
  induction gs with
  | nil => rfl
  | cons g tl ih =>
    by_cases h : g.id = gid <;> simp [setLabelFirst, h, ih]

/-- `moveFiles` never changes the id sequence of the groups. -/
theorem moveFiles_map_id (files : List SplitFile) (t : MoveTarget)
    (s : SplitModel) :
    ((SplitModel.moveFiles files t s).2.groups).map (fun g => g.id) =
      s.groups.map (fun g => g.id) := by
  cases t with
  | unassigned => simp [SplitModel.moveFiles, map_filt_map_id]
  | group gid =>
    by_cases hany : s.groups.any (fun g => g.id == gid) = true
    · simp [SplitModel.moveFiles, hany, appendToFirst_map_id, map_filt_map_id]
    · simp only [Bool.not_eq_true] at hany
      simp [SplitModel.moveFiles, hany]

/-- `renameGroup` never changes the id sequence of the groups. -/
theorem renameGroup_map_id (gid : Nat) (label : String) (s : SplitModel) :
    ((SplitModel.renameGroup gid label s).2.groups).map (fun g => g.id) =
      s.groups.map (fun g => g.id) := by
  by_cases hany : s.groups.any (fun g => g.id == gid) = true
  · simp [SplitModel.renameGroup, hany, setLabelFirst_map_id]
  · simp only [Bool.not_eq_true] at hany
    simp [SplitModel.renameGroup, hany]

/-- `renameGroup` never changes the stored paths. -/
theorem renameGroup_sessionPaths (gid : Nat) (label : String)
    (s : SplitModel) :
    sessionPaths (SplitModel.renameGroup gid label s).2 = sessionPaths s := by
  by_cases hany : s.groups.any (fun g => g.id == gid) = true
  · simp [SplitModel.renameGroup, hany, sessionPaths, setLabelFirst_proj]
  · simp only [Bool.not_eq_true] at hany
    simp [SplitModel.renameGroup, hany]

/-- `deleteGroup` keeps the id sequence duplicate-free. -/
theorem deleteGroup_ids_nodup (gid : Nat) (s : SplitModel)
    (hids : (s.groups.map (fun g => g.id)).Nodup) :
    (((SplitModel.deleteGroup gid s).2.groups).map (fun g => g.id)).Nodup := by
  cases hfind : s.groups.find? (fun g => g.id == gid) with
  | none => simpa [SplitModel.deleteGroup, hfind] using hids
  | some g =>
    simp only [SplitModel.deleteGroup, hfind]
    exact List.Nodup.sublist
      (List.Sublist.map _ (List.filter_sublist s.groups)) hids

/-- With duplicate-free ids, `deleteGroup` permutes the stored paths. -/
theorem deleteGroup_sessionPaths (gid : Nat) (s : SplitModel)
    (hids : (s.groups.map (fun g => g.id)).Nodup) :
    (sessionPaths (SplitModel.deleteGroup gid s).2).Perm (sessionPaths s) := by
  cases hfind : s.groups.find? (fun g => g.id == gid) with
  | none => simp [SplitModel.deleteGroup, hfind]
  | some g =>
    obtain ⟨pre, post, hsplit, -⟩ := find?_split _ _ _ hfind
    have hgid : g.id = gid := by simpa using List.find?_some hfind
    have hfilter := filter_ne_split s.groups gid pre post g hids hsplit hgid
    simp only [SplitModel.deleteGroup, hfind]
    rw [List.perm_iff_count]
    intro a
    rw [hfilter]
    simp only [sessionPaths, List.count_append]
    rw [hsplit]
    simp only [List.map_append, List.flatten_append, List.map_cons,
      List.flatten_cons, List.count_append]
    omega

/-- Appending the batch to the first group with the target id (present in
the list) appends the batch's paths to the flattened path multiset. -/
theorem flatten_appendToFirst_perm (gs : List SplitGroup) (gid : Nat)
    (files : List SplitFile) (hex : ∃ g ∈ gs, g.id = gid) :
    (((appendToFirst gs gid files).map
        (fun g => g.files.map SplitFile.path)).flatten).Perm
      ((gs.map (fun g => g.files.map SplitFile.path)).flatten ++
        files.map SplitFile.path) := by
  induction gs with
  | nil => simp at hex
  | cons g tl ih =>
    by_cases h : g.id = gid
    · simp only [appendToFirst, if_pos h]
      rw [List.perm_iff_count]
      intro a
      simp [List.count_append]
      omega
    · simp only [appendToFirst, if_neg h]
      have hex' : ∃ g' ∈ tl, g'.id = gid := by
        obtain ⟨g', hmem, hid⟩ := hex
        rcases List.mem_cons.mp hmem with rfl | hmem
        · exact absurd hid h
        · exact ⟨g', hmem, hid⟩
      have h1 := ih hex'
      rw [List.perm_iff_count]
      intro a
      have h2 := List.perm_iff_count.mp h1 a
      simp [List.count_append] at h2 ⊢
      omega

/-- Unfolding of `moveFiles` at a present numeric target. -/
theorem moveFiles_group_eq (files : List SplitFile) (gid : Nat)
    (s : SplitModel) (hany : s.groups.any (fun g => g.id == gid) = true) :
    SplitModel.moveFiles files (MoveTarget.group gid) s =
      (true,
        { s with
          unassigned := removePaths (files.map SplitFile.path) s.unassigned,
          groups :=
            appendToFirst
              (s.groups.map (fun g =>
                { g with
                  files := removePaths (files.map SplitFile.path) g.files }))
              gid files }) := by
  simp [SplitModel.moveFiles, hany]

/-- `moveFiles` with a duplicate-free batch of already-present paths
permutes the stored paths. -/
theorem sessionPaths_moveFiles (s : SplitModel) (files : List SplitFile)
    (t : MoveTarget) (hnd : (sessionPaths s).Nodup)
    (hbnd : (files.map SplitFile.path).Nodup)
    (hsub : ∀ p ∈ files.map SplitFile.path, p ∈ sessionPaths s) :
    (sessionPaths (SplitModel.moveFiles files t s).2).Perm
      (sessionPaths s) := by
  have key := filter_union_perm (sessionPaths s) (files.map SplitFile.path)
    hbnd hsub hnd
  cases t with
  | unassigned =>
    rw [List.perm_iff_count]
    intro a
    have h1 := List.perm_iff_count.mp key a
    simp only [sessionPaths, SplitModel.moveFiles, List.map_append,
      map_path_removePaths, groups_paths_filter, List.filter_append,
      List.count_append] at h1 ⊢
    omega
  | group gid =>
    by_cases hany : s.groups.any (fun g => g.id == gid) = true
    · have hex : ∃ g ∈ s.groups.map (fun g =>
          { g with
            files := removePaths (files.map SplitFile.path) g.files }),
          g.id = gid := by
        have hex0 : ∃ g ∈ s.groups, g.id = gid := by
          simpa [List.any_eq_true] using hany
        obtain ⟨g, hg, hid⟩ := hex0
        exact ⟨_, List.mem_map_of_mem _ hg, hid⟩
      have hperm1 := flatten_appendToFirst_perm _ gid files hex
      rw [moveFiles_group_eq files gid s hany]
      rw [List.perm_iff_count]
      intro a
      have h1 := List.perm_iff_count.mp key a
      have h2 := List.perm_iff_count.mp hperm1 a
      simp only [groups_paths_filter, List.count_append] at h2
      simp only [sessionPaths, List.filter_append, List.count_append] at h1
      simp only [sessionPaths, List.map_append, map_path_removePaths,
        List.count_append]
      omega
    · simp only [Bool.not_eq_true] at hany
      simp [SplitModel.moveFiles, hany]

/-- Flattening a list of empty lists gives the empty list. -/
theorem flatten_map_nil {α : Type} (l : List α) :
    ((l.map (fun _ => ([] : List String))).flatten) = [] := by
  induction l with
  | nil => rfl
  | cons x tl ih => simpa using ih

/-- One valid mutation preserves the partition invariant: duplicate-free
group ids and the stored path multiset. -/
theorem inv_step (P0 : List String) (hP0 : P0.Nodup) (s : SplitModel)
    (op : SessionOp) (hids : (s.groups.map (fun g => g.id)).Nodup)
    (hperm : (sessionPaths s).Perm P0) (hop : ValidOp s op) :
    ((applyOp s op).groups.map (fun g => g.id)).Nodup ∧
      (sessionPaths (applyOp s op)).Perm P0 := by
  have hnd : (sessionPaths s).Nodup := hperm.symm.nodup hP0
  cases op with
  | move files t =>
    obtain ⟨hbnd, hsub⟩ := hop
    refine ⟨?_, (sessionPaths_moveFiles s files t hnd hbnd hsub).trans hperm⟩
    show (((SplitModel.moveFiles files t s).2.groups).map
      (fun g => g.id)).Nodup
    rw [moveFiles_map_id]
    exact hids
  | rename gid label =>
    refine ⟨?_, ?_⟩
    · show (((SplitModel.renameGroup gid label s).2.groups).map
        (fun g => g.id)).Nodup
      rw [renameGroup_map_id]
      exact hids
    · show (sessionPaths (SplitModel.renameGroup gid label s).2).Perm P0
      rw [renameGroup_sessionPaths]
      exact hperm
  | delete gid =>
    exact ⟨deleteGroup_ids_nodup gid s hids,
      (deleteGroup_sessionPaths gid s hids).trans hperm⟩

/-- C1 counterexample: the partition law as stated fails for an arbitrary
`moveFiles` call — moving a file that was not part of the original
`startSplit` input succeeds and grows the stored path multiset beyond the
original input (exactly the behavior the spec itself describes for files
not present in the session). -/
theorem partition_law_cex :
    (SplitModel.moveFiles [fB] (MoveTarget.group 1)
      (SplitModel.startSplit 1 [fA] "main" "feature" SplitModel.init).2).1 =
      true ∧
    ¬ (sessionPaths
        (SplitModel.moveFiles [fB] (MoveTarget.group 1)
          (SplitModel.startSplit 1 [fA] "main" "feature"
            SplitModel.init).2).2).Perm ([fA].map SplitFile.path) := by
  decide

/-- C1 amended: after a successful startSplit on input files with
pairwise-distinct paths, any sequence of moveFiles / renameGroup /
deleteGroup calls in which every moveFiles batch consists of files with
pairwise-distinct paths already present in the session keeps the multiset
of paths across unassigned and all groups equal to the original input's
paths, with no path stored twice anywhere. -/
theorem partition_law (numPrs : Nat) (files : List SplitFile)
    (base source : String) (s0 s1 : SplitModel) (ops : List SessionOp)
    (hnd : (files.map SplitFile.path).Nodup)
    (hstart : SplitModel.startSplit numPrs files base source s0 = (none, s1))
    (hops : ValidOps s1 ops) :
    (sessionPaths (applyOps s1 ops)).Perm (files.map SplitFile.path) ∧
    (sessionPaths (applyOps s1 ops)).Nodup := by
  have hrun : ∀ (l : List SessionOp) (s : SplitModel),
      (s.groups.map (fun g => g.id)).Nodup →
      (sessionPaths s).Perm (files.map SplitFile.path) →
      ValidOps s l →
      ((applyOps s l).groups.map (fun g => g.id)).Nodup ∧
        (sessionPaths (applyOps s l)).Perm (files.map SplitFile.path) := by
    intro l
    induction l with
    | nil =>
      intro s h1 h2 _
      exact ⟨h1, h2⟩
    | cons op tl ih =>
      intro s h1 h2 hv
      cases hv with
      | cons _ _ _ hop htl =>
        have hstep := inv_step (files.map SplitFile.path) hnd s op h1 h2 hop
        exact ih _ hstep.1 hstep.2 htl
  simp only [SplitModel.startSplit] at hstart
  split_ifs at hstart with h1 h2 h3 h4
  · simp at hstart
  · simp at hstart
  · simp at hstart
  · simp at hstart
  · simp only [Prod.mk.injEq] at hstart
    obtain ⟨-, hs1⟩ := hstart
    subst hs1
    have hids0 : ((((List.range numPrs).map (fun i =>
        ({ id := i + 1, label := "PR " ++ toString (i + 1), files := [] }
          : SplitGroup)))).map (fun g => g.id)).Nodup := by
      rw [List.map_map]
      have hc : ((fun g : SplitGroup => g.id) ∘ (fun i =>
          ({ id := i + 1, label := "PR " ++ toString (i + 1), files := [] }
            : SplitGroup))) = fun i => i + 1 := rfl
      rw [hc]
      exact List.Nodup.map (fun a b hab => by omega) (List.nodup_range numPrs)
    have hflat : ((((List.range numPrs).map (fun i =>
        ({ id := i + 1, label := "PR " ++ toString (i + 1), files := [] }
          : SplitGroup)))).map
            (fun g => g.files.map SplitFile.path)).flatten = [] := by
      rw [List.map_map]
      have hc : ((fun g : SplitGroup => g.files.map SplitFile.path) ∘
          (fun i =>
            ({ id := i + 1, label := "PR " ++ toString (i + 1), files := [] }
              : SplitGroup))) = fun _ => ([] : List String) := rfl
      rw [hc]
      exact flatten_map_nil _
    have hperm0 : (sessionPaths
        { groups := (List.range numPrs).map (fun i =>
            ({ id := i + 1, label := "PR " ++ toString (i + 1), files := [] }
              : SplitGroup)),
          unassigned := files, baseBranch := base, sourceBranch := source,
          active := true }).Perm (files.map SplitFile.path) := by
      simp only [sessionPaths, hflat, List.append_nil]
      exact List.Perm.refl _
    obtain ⟨-, hp⟩ := hrun ops _ hids0 hperm0 hops
    exact ⟨hp, hp.symm.nodup hnd⟩

/-- Session reached by the witness's concrete `startSplit`. -/
def wS1 : SplitModel :=
  (SplitModel.startSplit 2 [fA, fB] "main" "feature" SplitModel.init).2

/-- Mutation sequence used by the partition-law witness. -/
def wOps : List SessionOp := [SessionOp.move [fA] (MoveTarget.group 1)]

/-- Witness for the amended C1 at a concrete session and mutation
sequence. -/
theorem partition_law_witness :
    (sessionPaths (applyOps wS1 wOps)).Perm ([fA, fB].map SplitFile.path) ∧
    (sessionPaths (applyOps wS1 wOps)).Nodup := by
  have hval : ValidOps wS1 wOps := by
    refine ValidOps.cons _ _ _ ?_ (ValidOps.nil _)
    show ([fA].map SplitFile.path).Nodup ∧
      ∀ p ∈ [fA].map SplitFile.path, p ∈ sessionPaths wS1
    decide
  exact partition_law 2 [fA, fB] "main" "feature" SplitModel.init wS1 wOps
    (by decide) (by decide) hval
